import Mathlib

/-!
# Verification of the Base4 bit-packing library

Shallow embedding of `src/src/lib.rs`: the single-block codec `Base4`
(up to 64 base-4 digits packed into one `u128` register) and the chained
container `Base4Int` (a deque of `Base4` blocks).

Modelling conventions:
* `u128` values are `Nat` with `% 2 ^ 128` applied exactly where the Rust
  operation wraps (only the left shift in `Base4.push` can wrap).
* `usize` counters are `Nat`.
* A Rust function that can panic is modelled with `Option`/`Except`:
  `none`/`.error s` is a panic (for `Except`, `s` is the state the
  structure is left in when the panic unwinds).
* `&mut self` methods return the new state; `&self` methods are pure.
* Generic digit parameters `T : Into<u128>` / returns `T : From<u8>` are
  modelled as `Nat` (the conversions in the source are lossless).
-/

/-- One block: `struct Base4 { size: usize, packed: u128 }`. -/
structure Base4 where
  size : Nat
  packed : Nat
  deriving DecidableEq, Repr

/-- `Base4::new()`: `Base4 { size: 0, packed: 0 }`. -/
def Base4.new : Base4 := { size := 0, packed := 0 }

/-- `Base4::push`:
`if integer >= 4 || self.size == 64 { return false; }
 self.size += 1; self.packed = (self.packed << 2) | integer; true`.
The `u128` left shift wraps, hence the `% 2 ^ 128`. -/
def Base4.push (b : Base4) (v : Nat) : Bool × Base4 :=
  if 4 ≤ v ∨ b.size = 64 then (false, b)
  else (true, { size := b.size + 1, packed := ((b.packed <<< 2) % 2 ^ 128) ||| v })

/-- The `for` loop inside `Base4::push_all`: push each element in order;
on the first failed push set `size = 0`, `packed = 0` and return `false`. -/
def Base4.pushAllLoop : Base4 → List Nat → Bool × Base4
  | b, [] => (true, b)
  | b, v :: vs =>
    match b.push v with
    | (true, b1) => Base4.pushAllLoop b1 vs
    | (false, _) => (false, { size := 0, packed := 0 })

/-- `Base4::push_all`: reject slices longer than 64 up front (leaving the
block untouched), otherwise run the push loop with its zeroing rollback. -/
def Base4.push_all (b : Base4) (ints : List Nat) : Bool × Base4 :=
  if 64 < ints.length then (false, b)
  else Base4.pushAllLoop b ints

/-- `Base4::pop`:
`if size <= 0 { None } else { int = packed & 0b11; packed >>= 2; size -= 1; Some int }`. -/
def Base4.pop (b : Base4) : Option Nat × Base4 :=
  if b.size = 0 then (none, b)
  else (some (b.packed &&& 3), { size := b.size - 1, packed := b.packed >>> 2 })

/-- Body of the `while let Some(value) = self.pop()` loop of
`Base4::pop_all`, unrolled on the size counter: each successful `pop`
yields `packed & 0b11` and continues on `{ size - 1, packed >> 2 }`; the
loop stops when `size` reaches `0`, with `register` the register then. -/
def drainAux : Nat → Nat → List Nat × Nat
  | 0, p => ([], p)
  | n + 1, p =>
    let rest := drainAux n (p >>> 2)
    ((p &&& 3) :: rest.1, rest.2)

/-- The popped values of the `pop` loop, newest-first, together with the
drained block state (`size = 0`, register fully shifted out). -/
def Base4.drain (b : Base4) : List Nat × Base4 :=
  ((drainAux b.size b.packed).1, { size := 0, packed := (drainAux b.size b.packed).2 })

/-- `Base4::pop_all`: early-return an empty vector on an empty block,
otherwise pop everything and reverse into insertion order. -/
def Base4.pop_all (b : Base4) : List Nat × Base4 :=
  if b.size = 0 then ([], b)
  else ((Base4.drain b).1.reverse, (Base4.drain b).2)

/-- The in-bounds body of `Base4::peek_at`:
`let shift_pos = 2 * (self.size - index - 1); (self.packed >> shift_pos) & 0b11`. -/
def Base4.peekShift (b : Base4) (index : Nat) : Nat :=
  (b.packed >>> (2 * (b.size - index - 1))) &&& 3

/-- `Base4::peek_at`: asserts `index < self.size` (panic modelled as `none`),
then reads the 2-bit lane at `2 * (size - index - 1)`. -/
def Base4.peek_at (b : Base4) (index : Nat) : Option Nat :=
  if index < b.size then some (b.peekShift index) else none

/-- `Base4::peek_all`: `for index in 0..self.size { ints.push(self.peek_at(index)) }`;
every index of the loop is in bounds, so each call takes `peek_at`'s read branch. -/
def Base4.peek_all (b : Base4) : List Nat :=
  (List.range b.size).map b.peekShift

/-- The chained container: `pub struct Base4Int(VecDeque<Base4>)`.
The list is front-to-back: head = oldest block, last = tail block. -/
structure Base4Int where
  blocks : List Base4
  deriving DecidableEq, Repr

/-- `Base4Int::new()`: empty deque. -/
def Base4Int.new : Base4Int := { blocks := [] }

/-- `Base4Int::total_len`: `self.0.iter().map(|block| block.size).sum()`. -/
def Base4Int.total_len (c : Base4Int) : Nat :=
  (c.blocks.map Base4.size).sum

/-- `Base4Int::total_blocks`: `self.0.len()`. -/
def Base4Int.total_blocks (c : Base4Int) : Nat :=
  c.blocks.length

/-- `Base4Int::get_codec`: keep the tail block if it exists and has
`size < 64`, otherwise `push_back(Base4::new())`. The source returns a
mutable reference to the tail block of the resulting deque; here we return
the resulting container, the referenced block being its last one. -/
def Base4Int.get_codec (c : Base4Int) : Base4Int :=
  match c.blocks.getLast? with
  | some codec => if codec.size < 64 then c else { blocks := c.blocks ++ [Base4.new] }
  | none => { blocks := c.blocks ++ [Base4.new] }

/-- The mutation performed by `Base4Int::push` after its bounds assert
succeeds: `let codec = self.get_codec(); codec.push(integer);` — the push is
delegated to the tail block of the (possibly extended) deque, and its
boolean result is discarded. -/
def Base4Int.pushOk (c : Base4Int) (v : Nat) : Base4Int :=
  let c1 := c.get_codec
  { blocks := c1.blocks.dropLast ++ [((c1.blocks.getLastD Base4.new).push v).2] }

/-- `Base4Int::push`: `assert!(integer < 4, ...)` — a panic (`.error`)
leaves the container unchanged; otherwise delegate to the tail codec. -/
def Base4Int.push (c : Base4Int) (v : Nat) : Except Base4Int Base4Int :=
  if 4 ≤ v then .error c else .ok (c.pushOk v)

/-- `Base4Int::push_all`: `for integer in ints { self.push(*integer); }` —
a panic in `push` aborts the loop with all earlier pushes committed. -/
def Base4Int.push_all (c : Base4Int) : List Nat → Except Base4Int Base4Int
  | [] => .ok c
  | v :: vs =>
    match c.push v with
    | .error s => .error s
    | .ok c1 => c1.push_all vs

/-- `Base4Int::pop`: panics (`.error`) on an empty deque; otherwise pops
from the back block, and if that block is left with `size == 0` it is
popped off the deque in the same operation. -/
def Base4Int.pop (c : Base4Int) : Except Base4Int (Option Nat × Base4Int) :=
  match c.blocks.getLast? with
  | none => .error c
  | some codec =>
    let out := (codec.pop).1
    let codec1 := (codec.pop).2
    let c1 : Base4Int := { blocks := c.blocks.dropLast ++ [codec1] }
    if codec1.size = 0 then .ok (out, { blocks := c1.blocks.dropLast })
    else .ok (out, c1)

/-- `Base4Int::pop_all`: early-return `vec![]` when `total_len == 0`
(without touching the deque); otherwise `pop_front` every block and extend
with its `pop_all`, leaving an empty deque. -/
def Base4Int.pop_all (c : Base4Int) : List Nat × Base4Int :=
  if c.total_len = 0 then ([], c)
  else ((c.blocks.map (fun b => (b.pop_all).1)).flatten, { blocks := [] })

/-- `Base4Int::peek_at`: asserts `index < total_len` (panic = `none`), then
delegates to block `index / 64` at inner index `index % 64`. The deque
indexing `self[codec_index]` itself panics out of bounds (also `none`). -/
def Base4Int.peek_at (c : Base4Int) (index : Nat) : Option Nat :=
  if index < c.total_len then
    match c.blocks[index / 64]? with
    | some b => b.peek_at (index % 64)
    | none => none
  else none

/-- `Base4Int::peek_all`: concatenate `peek_all` of every block in order. -/
def Base4Int.peek_all (c : Base4Int) : List Nat :=
  (c.blocks.map Base4.peek_all).flatten

/-! ## Abstraction: the digit sequence a state represents -/

/-- The base-4 digits of `p`, most-significant first, padded/truncated to
length `n`: the digit list a block ⟨n, p⟩ holds, oldest insertion first. -/
def digitsMSB : Nat → Nat → List Nat
  | 0, _ => []
  | n + 1, p => digitsMSB n (p / 4) ++ [p % 4]

/-- The digit sequence held by a block, oldest first. -/
def Base4.toList (b : Base4) : List Nat :=
  digitsMSB b.size b.packed

/-- The digit sequence held by the container, oldest first. -/
def Base4Int.toList (c : Base4Int) : List Nat :=
  (c.blocks.map Base4.toList).flatten

/-- Block-level well-formedness: the register holds at most 64 lanes and
no bits above the `size` occupied lanes. -/
def Base4.wfB (b : Base4) : Prop :=
  b.size ≤ 64 ∧ b.packed < 4 ^ b.size

/-- Container invariant: every block is well-formed and non-empty, and
every block except the tail is full. -/
def Base4Int.wf (c : Base4Int) : Prop :=
  (∀ b ∈ c.blocks, b.wfB ∧ b.size ≠ 0) ∧ (∀ b ∈ c.blocks.dropLast, b.size = 64)

/-- State left by an `Except`-modelled mutation (normal or unwound). -/
def exState (e : Except Base4Int Base4Int) : Base4Int :=
  match e with
  | .error s => s
  | .ok s => s

/-- State left by `Base4Int.pop` (normal or unwound). -/
def popState (c : Base4Int) : Base4Int :=
  match c.pop with
  | .error s => s
  | .ok (_, s) => s

/-- Container states reachable from `Base4Int::new()` through the public
mutating operations `push`, `push_all`, `pop`, `pop_all` (including the
states left behind by a panicking `push`/`push_all`/`pop`). `peek_at` and
`peek_all` take `&self` and contribute no transition. -/
inductive Base4Int.Reachable : Base4Int → Prop
  | new : Base4Int.Reachable Base4Int.new
  | push (c : Base4Int) (v : Nat) :
      Base4Int.Reachable c → Base4Int.Reachable (exState (c.push v))
  | push_all (c : Base4Int) (vs : List Nat) :
      Base4Int.Reachable c → Base4Int.Reachable (exState (c.push_all vs))
  | pop (c : Base4Int) :
      Base4Int.Reachable c → Base4Int.Reachable (popState c)
  | pop_all (c : Base4Int) :
      Base4Int.Reachable c → Base4Int.Reachable (c.pop_all).2

/-! ## Bit-level arithmetic lemmas -/

theorem and_three (n : Nat) : n &&& 3 = n % 4 := Nat.and_pow_two_sub_one_eq_mod n 2

theorem shiftRight_two (n : Nat) : n >>> 2 = n / 4 := Nat.shiftRight_eq_div_pow n 2

/-- ORing a digit `v < 4` into a multiple of `4` is addition. -/
theorem lor_mul_four {k v : Nat} (hv : v < 4) : (4 * k) ||| v = 4 * k + v := by
  apply Nat.eq_of_testBit_eq
  intro i
  rw [Nat.testBit_or]
  match i with
  | 0 =>
    rw [Nat.testBit_zero, Nat.testBit_zero, Nat.testBit_zero]
    have h1 : (4 * k) % 2 = 0 := by omega
    have h2 : (4 * k + v) % 2 = v % 2 := by omega
    rw [h1, h2]
    simp
  | 1 =>
    rw [Nat.testBit_succ, Nat.testBit_succ, Nat.testBit_succ,
      Nat.testBit_zero, Nat.testBit_zero, Nat.testBit_zero]
    have h1 : 4 * k / 2 % 2 = 0 := by omega
    have h2 : (4 * k + v) / 2 % 2 = v / 2 % 2 := by omega
    rw [h1, h2]
    simp
  | i + 2 =>
    have e1 : (4 * k + v).testBit (i + 2) = ((4 * k + v) / 2 / 2).testBit i := by
      rw [Nat.testBit_succ, Nat.testBit_succ]
    have e2 : (4 * k).testBit (i + 2) = (4 * k / 2 / 2).testBit i := by
      rw [Nat.testBit_succ, Nat.testBit_succ]
    have h1 : (4 * k + v) / 2 / 2 = k := by omega
    have h2 : 4 * k / 2 / 2 = k := by omega
    have h3 : v.testBit (i + 2) = false := by
      apply Nat.testBit_lt_two_pow
      calc v < 4 := hv
        _ = 2 ^ 2 := by norm_num
        _ ≤ 2 ^ (i + 2) := Nat.pow_le_pow_right (by norm_num) (by omega)
    rw [e1, e2, h1, h2, h3]
    simp

/-- The register update of a successful `Base4::push`: shift-left-2 then OR,
both wrapping at `2 ^ 128`, equals `packed * 4 + v` modulo `2 ^ 128`. -/
theorem push_packed {p v : Nat} (hv : v < 4) :
    ((p <<< 2) % 2 ^ 128) ||| v = (p * 4 + v) % 2 ^ 128 := by
  rw [Nat.shiftLeft_eq]
  have h : p * 2 ^ 2 % 2 ^ 128 = 4 * (p % 2 ^ 126) := by
    have h1 : (2 : Nat) ^ 128 = 4 * 2 ^ 126 := by norm_num
    rw [h1, show (2 : Nat) ^ 2 = 4 from rfl, Nat.mul_comm p 4]
    exact Nat.mul_mod_mul_left 4 p (2 ^ 126)
  rw [h, lor_mul_four hv]
  omega

/-- On a well-formed non-full block the push register update does not wrap. -/
theorem push_packed_small {p v s : Nat} (hv : v < 4) (hp : p < 4 ^ s) (hs : s < 64) :
    ((p <<< 2) % 2 ^ 128) ||| v = p * 4 + v := by
  rw [push_packed hv]
  apply Nat.mod_eq_of_lt
  have h1 : p * 4 + v < 4 ^ (s + 1) := by
    have h0 : 0 < (4 : Nat) ^ s := Nat.pow_pos (by norm_num)
    calc p * 4 + v < 4 ^ s * 4 := by omega
      _ = 4 ^ (s + 1) := (Nat.pow_succ 4 s).symm
  have h2 : (4 : Nat) ^ (s + 1) ≤ 4 ^ 64 := Nat.pow_le_pow_right (by norm_num) (by omega)
  have h3 : (4 : Nat) ^ 64 = 2 ^ 128 := by norm_num
  omega

/-! ## Lemmas about `digitsMSB` -/

theorem digitsMSB_length (n : Nat) : ∀ p, (digitsMSB n p).length = n := by
  induction n with
  | zero => intro p; rfl
  | succ n ih => intro p; simp [digitsMSB, ih]

/-- Appending a digit `v < 4` to the register appends it to the digit list. -/
theorem digitsMSB_snoc (n p v : Nat) (hv : v < 4) :
    digitsMSB (n + 1) (p * 4 + v) = digitsMSB n p ++ [v] := by
  have h1 : (p * 4 + v) / 4 = p := by omega
  have h2 : (p * 4 + v) % 4 = v := by omega
  simp [digitsMSB, h1, h2]

theorem digitsMSB_getElem? (n : Nat) :
    ∀ p j, (digitsMSB n p)[j]? =
      if j < n then some (p / 4 ^ (n - 1 - j) % 4) else none := by
  induction n with
  | zero => intro p j; simp [digitsMSB]
  | succ n ih =>
    intro p j
    simp only [digitsMSB]
    rw [List.getElem?_append, digitsMSB_length]
    by_cases hj : j < n
    · rw [if_pos hj, ih, if_pos hj, if_pos (by omega)]
      have h4 : p / 4 / 4 ^ (n - 1 - j) = p / 4 ^ (n + 1 - 1 - j) := by
        rw [Nat.div_div_eq_div_mul]
        have h5 : 4 * 4 ^ (n - 1 - j) = 4 ^ (n - j) := by
          rw [← Nat.pow_succ']
          congr 1
          omega
        rw [h5, show n + 1 - 1 - j = n - j from by omega]
      rw [h4]
    · by_cases hj2 : j = n
      · subst hj2
        rw [if_neg (by omega), if_pos (by omega)]
        simp
      · rw [if_neg (by omega), if_neg (by omega)]
        have : [p % 4][j - n]? = none := by
          apply List.getElem?_eq_none
          simp
          omega
        rw [this]

/-- Every digit produced by `digitsMSB` is at most 3. -/
theorem digitsMSB_le_three (n : Nat) : ∀ p, ∀ d ∈ digitsMSB n p, d ≤ 3 := by
  induction n with
  | zero => intro p d hd; simp [digitsMSB] at hd
  | succ n ih =>
    intro p d hd
    simp only [digitsMSB, List.mem_append, List.mem_singleton] at hd
    rcases hd with hd | hd
    · exact ih _ d hd
    · omega

/-! ## Lemmas about the block codec -/

theorem Base4.wfB_new : Base4.new.wfB := by
  constructor <;> simp [Base4.new, Base4.wfB]

/-- A successful push on a well-formed non-full block: the register update
does not wrap. -/
theorem Base4.push_ok {b : Base4} {v : Nat} (hv : v < 4) (hb : b.wfB) (hs : b.size < 64) :
    b.push v = (true, { size := b.size + 1, packed := b.packed * 4 + v }) := by
  unfold Base4.push
  rw [if_neg (by omega), push_packed_small hv hb.2 hs]

theorem Base4.toList_pushed {s p v : Nat} (hv : v < 4) :
    (Base4.mk (s + 1) (p * 4 + v)).toList = (Base4.mk s p).toList ++ [v] :=
  digitsMSB_snoc s p v hv

theorem Base4.wfB_pushed {s p v : Nat} (hv : v < 4) (hb : (Base4.mk s p).wfB)
    (hs : s < 64) : (Base4.mk (s + 1) (p * 4 + v)).wfB := by
  constructor
  · show s + 1 ≤ 64
    omega
  · show p * 4 + v < 4 ^ (s + 1)
    have h2 : p < 4 ^ s := hb.2
    have h3 : (4 : Nat) ^ (s + 1) = 4 ^ s * 4 := Nat.pow_succ 4 s
    omega

/-- The push loop of `Base4::push_all` on all-valid input that fits. -/
theorem Base4.pushAllLoop_ok :
    ∀ (S : List Nat) (b : Base4), b.wfB → b.size + S.length ≤ 64 → (∀ v ∈ S, v < 4) →
      (Base4.pushAllLoop b S).1 = true ∧
      (Base4.pushAllLoop b S).2.toList = b.toList ++ S ∧
      (Base4.pushAllLoop b S).2.wfB ∧
      (Base4.pushAllLoop b S).2.size = b.size + S.length := by
  intro S
  induction S with
  | nil =>
    intro b hb _ _
    exact ⟨rfl, by simp [Base4.pushAllLoop], hb, by simp [Base4.pushAllLoop]⟩
  | cons v vs ih =>
    intro b hb hlen hS
    have hv : v < 4 := hS v (by simp)
    have hs : b.size < 64 := by
      simp only [List.length_cons] at hlen
      omega
    simp only [Base4.pushAllLoop]
    rw [Base4.push_ok hv hb hs]
    simp only []
    obtain ⟨b1ok, b1list, b1wf, b1size⟩ :=
      ih (Base4.mk (b.size + 1) (b.packed * 4 + v))
        (Base4.wfB_pushed hv hb hs)
        (by
          show b.size + 1 + vs.length ≤ 64
          simp only [List.length_cons] at hlen
          omega)
        (fun w hw => hS w (by simp [hw]))
    refine ⟨b1ok, ?_, b1wf, ?_⟩
    · rw [b1list]
      have hstep : (Base4.mk (b.size + 1) (b.packed * 4 + v)).toList = b.toList ++ [v] :=
        Base4.toList_pushed hv
      rw [hstep, List.append_assoc]
      rfl
    · rw [b1size]
      show b.size + 1 + vs.length = b.size + (v :: vs).length
      simp only [List.length_cons]
      omega

/-- A push loop that reports failure leaves the zeroed block. -/
theorem Base4.pushAllLoop_false :
    ∀ (S : List Nat) (b : Base4), (Base4.pushAllLoop b S).1 = false →
      (Base4.pushAllLoop b S).2 = { size := 0, packed := 0 } := by
  intro S
  induction S with
  | nil => intro b h; simp [Base4.pushAllLoop] at h
  | cons v vs ih =>
    intro b h
    rcases hpv : b.push v with ⟨ok, b1⟩
    simp only [Base4.pushAllLoop, hpv] at h ⊢
    cases ok
    · rfl
    · exact ih b1 h

theorem drainAux_fst : ∀ n p, (drainAux n p).1 = (digitsMSB n p).reverse := by
  intro n
  induction n with
  | zero => intro p; rfl
  | succ n ih =>
    intro p
    simp [drainAux, digitsMSB, ih, and_three, shiftRight_two]

theorem drainAux_le_three : ∀ n p, ∀ d ∈ (drainAux n p).1, d ≤ 3 := by
  intro n
  induction n with
  | zero => intro p d hd; simp [drainAux] at hd
  | succ n ih =>
    intro p d hd
    simp only [drainAux, List.mem_cons] at hd
    rcases hd with hd | hd
    · rw [hd, and_three]; omega
    · exact ih _ d hd

/-- `Base4::pop_all` returns exactly the held digit sequence. -/
theorem Base4.pop_all_fst (b : Base4) : (b.pop_all).1 = b.toList := by
  unfold Base4.pop_all Base4.drain Base4.toList
  by_cases h : b.size = 0
  · rw [if_pos h, h]
    rfl
  · rw [if_neg h, drainAux_fst, List.reverse_reverse]

theorem Base4.peekShift_eq (b : Base4) (j : Nat) :
    b.peekShift j = b.packed / 4 ^ (b.size - 1 - j) % 4 := by
  unfold Base4.peekShift
  rw [Nat.shiftRight_eq_div_pow, and_three, Nat.pow_mul,
    show b.size - j - 1 = b.size - 1 - j from by omega]

/-- `Base4::peek_at` reads exactly the digit at that index. -/
theorem Base4.peek_at_toList (b : Base4) (j : Nat) : b.peek_at j = b.toList[j]? := by
  unfold Base4.peek_at Base4.toList
  rw [digitsMSB_getElem?]
  by_cases hj : j < b.size
  · rw [if_pos hj, if_pos hj, Base4.peekShift_eq]
  · rw [if_neg hj, if_neg hj]

/-- `Base4::peek_all` returns exactly the held digit sequence. -/
theorem Base4.peek_all_toList (b : Base4) : b.peek_all = b.toList := by
  apply List.ext_getElem?
  intro i
  unfold Base4.peek_all
  rw [List.getElem?_map]
  by_cases hi : i < b.size
  · rw [List.getElem?_range hi]
    show some (b.peekShift i) = b.toList[i]?
    unfold Base4.toList
    rw [digitsMSB_getElem?, if_pos hi, Base4.peekShift_eq]
  · have h1 : (List.range b.size)[i]? = none := by
      apply List.getElem?_eq_none
      simpa using by omega
    have h2 : b.toList[i]? = none := by
      apply List.getElem?_eq_none
      unfold Base4.toList
      rw [digitsMSB_length]
      omega
    rw [h1, h2]
    rfl

theorem Base4.toList_length (b : Base4) : b.toList.length = b.size :=
  digitsMSB_length b.size b.packed

/-! ## Lemmas about the chained container -/

theorem Base4Int.length_toList (c : Base4Int) : c.toList.length = c.total_len := by
  unfold Base4Int.toList Base4Int.total_len
  rw [List.length_flatten, List.map_map]
  congr 1
  apply List.map_congr_left
  intro b _
  exact Base4.toList_length b

theorem Base4Int.toList_concat (bs : List Base4) (b : Base4) :
    (Base4Int.mk (bs ++ [b])).toList = (Base4Int.mk bs).toList ++ b.toList := by
  unfold Base4Int.toList
  simp

theorem Base4Int.wf_new : Base4Int.new.wf := by
  constructor <;> intro b hb <;> simp [Base4Int.new] at hb

theorem Base4.push_new {v : Nat} (hv : v < 4) :
    Base4.new.push v = (true, Base4.mk 1 v) := by
  rw [Base4.push_ok hv Base4.wfB_new (by decide)]
  norm_num [Base4.new]

theorem Base4Int.pushOk_nil {c : Base4Int} (h : c.blocks = []) (v : Nat) :
    c.pushOk v = Base4Int.mk [(Base4.new.push v).2] := by
  unfold Base4Int.pushOk Base4Int.get_codec
  rw [h]
  rfl

theorem Base4Int.pushOk_notfull {c : Base4Int} {bs : List Base4} {b : Base4}
    (h : c.blocks = bs ++ [b]) (hlt : b.size < 64) (v : Nat) :
    c.pushOk v = Base4Int.mk (bs ++ [(b.push v).2]) := by
  rcases c with ⟨bl⟩
  simp only at h
  subst h
  unfold Base4Int.pushOk Base4Int.get_codec
  rw [List.getLast?_concat]
  simp only [if_pos hlt]
  rw [List.dropLast_concat]
  congr 2
  simp [List.getLastD_concat]

theorem Base4Int.pushOk_full {c : Base4Int} {bs : List Base4} {b : Base4}
    (h : c.blocks = bs ++ [b]) (hge : ¬ b.size < 64) (v : Nat) :
    c.pushOk v = Base4Int.mk ((bs ++ [b]) ++ [(Base4.new.push v).2]) := by
  rcases c with ⟨bl⟩
  simp only at h
  subst h
  unfold Base4Int.pushOk Base4Int.get_codec
  rw [List.getLast?_concat]
  simp only [if_neg hge]
  rw [List.dropLast_concat]
  congr 2
  simp [List.getLastD_concat]

theorem Base4.wfB_one {v : Nat} (hv : v < 4) : (Base4.mk 1 v).wfB := by
  constructor
  · show 1 ≤ 64
    omega
  · show v < 4 ^ 1
    omega

theorem Base4.toList_one {v : Nat} (hv : v < 4) : (Base4.mk 1 v).toList = [v] := by
  unfold Base4.toList
  simp [digitsMSB, Nat.mod_eq_of_lt hv]

theorem Base4Int.toList_blocks {c : Base4Int} {bs : List Base4} (h : c.blocks = bs) :
    c.toList = (Base4Int.mk bs).toList := by
  unfold Base4Int.toList
  rw [h]

/-- Effect of a (panic-free) `Base4Int::push` on a well-formed container:
it appends the digit to the held sequence and preserves the invariant. -/
theorem Base4Int.pushOk_spec {c : Base4Int} {v : Nat} (hc : c.wf) (hv : v < 4) :
    (c.pushOk v).toList = c.toList ++ [v] ∧ (c.pushOk v).wf := by
  rcases List.eq_nil_or_concat c.blocks with hnil | ⟨bs, b, hcat⟩
  · rw [Base4Int.pushOk_nil hnil v, Base4.push_new hv]
    refine ⟨?_, ?_, ?_⟩
    · have h0 : c.toList = [] := by
        unfold Base4Int.toList
        rw [hnil]
        rfl
      rw [h0]
      unfold Base4Int.toList
      simp [Base4.toList_one hv]
    · intro x hx
      simp only [List.mem_singleton] at hx
      subst hx
      exact ⟨Base4.wfB_one hv, by simp⟩
    · intro x hx
      simp at hx
  · rw [List.concat_eq_append] at hcat
    have hbmem : b ∈ c.blocks := by
      rw [hcat]
      simp
    have hbwf : b.wfB := (hc.1 b hbmem).1
    have hbne : b.size ≠ 0 := (hc.1 b hbmem).2
    by_cases hlt : b.size < 64
    · rw [Base4Int.pushOk_notfull hcat hlt v, Base4.push_ok hv hbwf hlt]
      constructor
      · rw [Base4Int.toList_concat]
        have hstep : (Base4.mk (b.size + 1) (b.packed * 4 + v)).toList = b.toList ++ [v] :=
          Base4.toList_pushed hv
        rw [hstep, Base4Int.toList_blocks hcat, Base4Int.toList_concat, List.append_assoc]
      · constructor
        · intro x hx
          rcases List.mem_append.1 hx with hx1 | hx1
          · exact hc.1 x (by rw [hcat]; exact List.mem_append_left _ hx1)
          · have hxe : x = Base4.mk (b.size + 1) (b.packed * 4 + v) := by simpa using hx1
            subst hxe
            exact ⟨Base4.wfB_pushed hv hbwf hlt, by simp⟩
        · intro x hx
          rw [List.dropLast_concat] at hx
          have h2 := hc.2
          rw [hcat, List.dropLast_concat] at h2
          exact h2 x hx
    · rw [Base4Int.pushOk_full hcat hlt v, Base4.push_new hv]
      constructor
      · rw [Base4Int.toList_concat, Base4Int.toList_blocks hcat, Base4.toList_one hv]
      · constructor
        · intro x hx
          rcases List.mem_append.1 hx with hx1 | hx1
          · exact hc.1 x (by rw [hcat]; exact hx1)
          · have hxe : x = Base4.mk 1 v := by simpa using hx1
            subst hxe
            exact ⟨Base4.wfB_one hv, by simp⟩
        · intro x hx
          rw [List.dropLast_concat] at hx
          rcases List.mem_append.1 hx with hx1 | hx1
          · have h2 := hc.2
            rw [hcat, List.dropLast_concat] at h2
            exact h2 x hx1
          · have hxe : x = b := by simpa using hx1
            subst hxe
            have h64 := hbwf.1
            omega
  
/-- Folding panic-free pushes over a digit list appends it to the sequence. -/
theorem Base4Int.foldl_pushOk_spec :
    ∀ (vs : List Nat) (c : Base4Int), c.wf → (∀ v ∈ vs, v < 4) →
      (vs.foldl Base4Int.pushOk c).wf ∧
      (vs.foldl Base4Int.pushOk c).toList = c.toList ++ vs := by
  intro vs
  induction vs with
  | nil => intro c hc _; exact ⟨hc, by simp⟩
  | cons v vs ih =>
    intro c hc hvs
    have hv : v < 4 := hvs v (by simp)
    obtain ⟨hlist, hwf⟩ := Base4Int.pushOk_spec hc hv
    obtain ⟨ih1, ih2⟩ := ih (c.pushOk v) hwf (fun w hw => hvs w (by simp [hw]))
    refine ⟨ih1, ?_⟩
    rw [List.foldl_cons] at *
    rw [ih2, hlist, List.append_assoc]
    rfl

/-- `Base4Int::push_all` on all-in-range input is the fold of `push`. -/
theorem Base4Int.push_all_ok :
    ∀ (vs : List Nat) (c : Base4Int), (∀ v ∈ vs, v < 4) →
      c.push_all vs = .ok (vs.foldl Base4Int.pushOk c) := by
  intro vs
  induction vs with
  | nil => intro c _; rfl
  | cons v vs ih =>
    intro c hvs
    have hv : v < 4 := hvs v (by simp)
    simp only [Base4Int.push_all, Base4Int.push, if_neg (by omega : ¬ 4 ≤ v)]
    exact ih (c.pushOk v) (fun w hw => hvs w (by simp [hw]))

/-- `Base4Int::push_all` containing an out-of-range value panics at the
first such value, with exactly the preceding values committed. -/
theorem Base4Int.push_all_err :
    ∀ (vs : List Nat) (c : Base4Int), (∃ v ∈ vs, 4 ≤ v) →
      c.push_all vs =
        .error ((vs.takeWhile (fun v => decide (v < 4))).foldl Base4Int.pushOk c) := by
  intro vs
  induction vs with
  | nil => intro c h; simp at h
  | cons v vs ih =>
    intro c h
    by_cases hv : 4 ≤ v
    · simp only [Base4Int.push_all, Base4Int.push, if_pos hv]
      rw [List.takeWhile_cons, if_neg (by simp; omega)]
      rfl
    · have hvlt : v < 4 := by omega
      simp only [Base4Int.push_all, Base4Int.push, if_neg hv]
      rw [List.takeWhile_cons, if_pos (by simp; omega), List.foldl_cons]
      apply ih
      rcases h with ⟨w, hw, hw4⟩
      rcases List.mem_cons.1 hw with rfl | hw2
      · omega
      · exact ⟨w, hw2, hw4⟩

theorem Base4Int.pop_nil {c : Base4Int} (h : c.blocks = []) : c.pop = .error c := by
  unfold Base4Int.pop
  rw [h]
  rfl

/-- Computation of `Base4Int::pop` on a container whose tail block is
non-empty: pop the low lane of the tail, evicting it when it empties. -/
theorem Base4Int.pop_concat (l : List Base4) (b : Base4) (hb : b.size ≠ 0) :
    (Base4Int.mk (l ++ [b])).pop = .ok (some (b.packed &&& 3),
      if b.size - 1 = 0 then Base4Int.mk l
      else Base4Int.mk (l ++ [Base4.mk (b.size - 1) (b.packed >>> 2)])) := by
  unfold Base4Int.pop Base4.pop
  rw [List.getLast?_concat]
  simp only [if_neg hb, List.dropLast_concat]
  by_cases h1 : b.size - 1 = 0
  · rw [if_pos h1, if_pos h1]
  · rw [if_neg h1, if_neg h1]

/-- `Base4Int::pop_all` returns exactly the held digit sequence. -/
theorem Base4Int.pop_all_list (c : Base4Int) : (c.pop_all).1 = c.toList := by
  unfold Base4Int.pop_all
  by_cases h : c.total_len = 0
  · rw [if_pos h]
    have h0 : c.toList = [] := by
      have hl : c.toList.length = 0 := by
        rw [Base4Int.length_toList]
        exact h
      exact List.eq_nil_of_length_eq_zero hl
    rw [h0]
  · rw [if_neg h]
    show (c.blocks.map fun b => (b.pop_all).1).flatten = c.toList
    unfold Base4Int.toList
    congr 1
    apply List.map_congr_left
    intro b _
    exact Base4.pop_all_fst b

/-- Under the invariant, the block count is `⌈total_len / 64⌉`. -/
theorem Base4Int.total_blocks_ceil {c : Base4Int} (hc : c.wf) :
    c.total_blocks = (c.total_len + 63) / 64 := by
  rcases List.eq_nil_or_concat c.blocks with hnil | ⟨bs, b, hcat⟩
  · unfold Base4Int.total_blocks Base4Int.total_len
    rw [hnil]
    rfl
  · rw [List.concat_eq_append] at hcat
    have hfull : ∀ x ∈ bs, x.size = 64 := by
      have h2 := hc.2
      rw [hcat, List.dropLast_concat] at h2
      exact h2
    have hrep : bs.map Base4.size = List.replicate bs.length 64 := by
      have := List.eq_replicate_of_mem (l := bs.map Base4.size) (a := 64) ?_
      · simpa using this
      · intro y hy
        rcases List.mem_map.1 hy with ⟨x, hx, rfl⟩
        exact hfull x hx
    have hbmem : b ∈ c.blocks := by
      rw [hcat]
      simp
    have hb1 : b.size ≠ 0 := (hc.1 b hbmem).2
    have hb64 : b.size ≤ 64 := (hc.1 b hbmem).1.1
    unfold Base4Int.total_blocks Base4Int.total_len
    rw [hcat, List.map_append, List.sum_append, hrep, List.sum_replicate]
    simp only [List.length_append, List.length_singleton, List.map_cons, List.map_nil,
      List.sum_cons, List.sum_nil, smul_eq_mul]
    omega

/-- Popping right after a push returns the pushed digit and restores the
container state exactly. -/
theorem Base4Int.pop_pushOk {c : Base4Int} {v : Nat} (hc : c.wf) (hv : v < 4) :
    (c.pushOk v).pop = .ok (some v, c) := by
  have hv3 : v &&& 3 = v := by
    rw [and_three]
    omega
  rcases List.eq_nil_or_concat c.blocks with hnil | ⟨bs, b, hcat⟩
  · have hce : c = Base4Int.mk [] := by
      obtain ⟨bl⟩ := c
      simp only at hnil
      rw [hnil]
    rw [Base4Int.pushOk_nil hnil v, Base4.push_new hv]
    show (Base4Int.mk ([] ++ [Base4.mk 1 v])).pop = .ok (some v, c)
    rw [Base4Int.pop_concat [] (Base4.mk 1 v) (by simp), hv3, hce]
    rfl
  · rw [List.concat_eq_append] at hcat
    have hce : c = Base4Int.mk (bs ++ [b]) := by
      obtain ⟨bl⟩ := c
      simp only at hcat
      rw [hcat]
    have hbmem : b ∈ c.blocks := by
      rw [hcat]
      simp
    have hbwf : b.wfB := (hc.1 b hbmem).1
    have hbne : b.size ≠ 0 := (hc.1 b hbmem).2
    by_cases hlt : b.size < 64
    · rw [Base4Int.pushOk_notfull hcat hlt v, Base4.push_ok hv hbwf hlt]
      show (Base4Int.mk (bs ++ [Base4.mk (b.size + 1) (b.packed * 4 + v)])).pop =
        .ok (some v, c)
      rw [Base4Int.pop_concat bs (Base4.mk (b.size + 1) (b.packed * 4 + v)) (by simp)]
      have hmask : (b.packed * 4 + v) &&& 3 = v := by
        rw [and_three]
        omega
      have hshift : (b.packed * 4 + v) >>> 2 = b.packed := by
        rw [shiftRight_two]
        omega
      rw [if_neg (by simpa using hbne), hmask, hshift]
      simp only [Nat.add_sub_cancel]
      rw [hce]
    · rw [Base4Int.pushOk_full hcat hlt v, Base4.push_new hv]
      show (Base4Int.mk ((bs ++ [b]) ++ [Base4.mk 1 v])).pop = .ok (some v, c)
      rw [Base4Int.pop_concat (bs ++ [b]) (Base4.mk 1 v) (by simp), hv3, hce]
      rfl

theorem Base4Int.wf_nil : (Base4Int.mk []).wf := by
  constructor <;> intro b hb <;> simp at hb

/-- Full characterization of a successful `Base4Int::pop` under the
invariant: it returns the newest digit, the held sequence loses its last
element, the invariant is preserved, and the tail block is evicted exactly
when it held a single digit. -/
theorem Base4Int.pop_spec {c : Base4Int} (hc : c.wf) (hne : c.blocks ≠ []) :
    ∃ d c2, c.pop = .ok (some d, c2) ∧
      some d = c.toList.getLast? ∧
      c2.toList = c.toList.dropLast ∧
      c2.wf ∧
      ∃ l b, c.blocks = l ++ [b] ∧
        ((b.size = 1 ∧ c2.blocks = l) ∨
         (1 < b.size ∧ c2.blocks = l ++ [Base4.mk (b.size - 1) (b.packed >>> 2)])) := by
  rcases List.eq_nil_or_concat c.blocks with hnil | ⟨l, b, hcat⟩
  · exact absurd hnil hne
  · rw [List.concat_eq_append] at hcat
    have hce : c = Base4Int.mk (l ++ [b]) := by
      obtain ⟨bl⟩ := c
      simp only at hcat
      rw [hcat]
    have hbmem : b ∈ c.blocks := by
      rw [hcat]
      simp
    have hbwf : b.wfB := (hc.1 b hbmem).1
    have hbne : b.size ≠ 0 := (hc.1 b hbmem).2
    have hlfull : ∀ x ∈ l, x.size = 64 := by
      have h2 := hc.2
      rw [hcat, List.dropLast_concat] at h2
      exact h2
    have hlwf : ∀ x ∈ l, x.wfB ∧ x.size ≠ 0 := fun x hx =>
      hc.1 x (by rw [hcat]; exact List.mem_append_left _ hx)
    obtain ⟨m, hm⟩ : ∃ m, b.size = m + 1 := ⟨b.size - 1, by omega⟩
    have htl : c.toList =
        (Base4Int.mk l).toList ++ (digitsMSB m (b.packed / 4) ++ [b.packed % 4]) := by
      rw [Base4Int.toList_blocks hcat, Base4Int.toList_concat]
      congr 1
      unfold Base4.toList
      rw [hm]
      rfl
    have hlast : some (b.packed &&& 3) = c.toList.getLast? := by
      rw [htl, ← List.append_assoc, List.getLast?_concat, and_three]
    have hdrop : c.toList.dropLast = (Base4Int.mk l).toList ++ digitsMSB m (b.packed / 4) := by
      rw [htl, ← List.append_assoc, List.dropLast_concat]
    by_cases h1 : b.size = 1
    · refine ⟨b.packed &&& 3, Base4Int.mk l, ?_, hlast, ?_, ?_, l, b, hcat, Or.inl ⟨h1, rfl⟩⟩
      · rw [hce, Base4Int.pop_concat l b hbne, if_pos (by omega)]
      · rw [hdrop, show m = 0 from by omega]
        simp [digitsMSB]
      · exact ⟨hlwf, fun x hx => hlfull x (List.dropLast_subset l hx)⟩
    · refine ⟨b.packed &&& 3, Base4Int.mk (l ++ [Base4.mk (b.size - 1) (b.packed >>> 2)]),
        ?_, hlast, ?_, ?_, l, b, hcat, Or.inr ⟨by omega, rfl⟩⟩
      · rw [hce, Base4Int.pop_concat l b hbne, if_neg (by omega)]
      · rw [hdrop, Base4Int.toList_concat]
        congr 1
        unfold Base4.toList
        rw [shiftRight_two, show b.size - 1 = m from by omega]
      · constructor
        · intro x hx
          rcases List.mem_append.1 hx with hx1 | hx1
          · exact hlwf x hx1
          · have hxe : x = Base4.mk (b.size - 1) (b.packed >>> 2) := by simpa using hx1
            subst hxe
            refine ⟨⟨?_, ?_⟩, ?_⟩
            · show b.size - 1 ≤ 64
              have := hbwf.1
              omega
            · show b.packed >>> 2 < 4 ^ (b.size - 1)
              rw [shiftRight_two]
              have hp := hbwf.2
              rw [hm] at hp
              rw [show b.size - 1 = m from by omega]
              have h4 : (4 : Nat) ^ (m + 1) = 4 ^ m * 4 := Nat.pow_succ 4 m
              rw [Nat.div_lt_iff_lt_mul (by norm_num)]
              omega
            · show b.size - 1 ≠ 0
              omega
        · intro x hx
          rw [List.dropLast_concat] at hx
          exact hlfull x hx

/-- Every reachable container state satisfies the invariant. -/
theorem Base4Int.reachable_wf {c : Base4Int} (h : c.Reachable) : c.wf := by
  induction h with
  | new => exact Base4Int.wf_new
  | push c v _ ih =>
    by_cases hv : 4 ≤ v
    · simpa [exState, Base4Int.push, hv] using ih
    · have hv4 : v < 4 := by omega
      have := (Base4Int.pushOk_spec ih hv4).2
      simpa [exState, Base4Int.push, hv] using this
  | push_all c vs _ ih =>
    by_cases hall : ∀ v ∈ vs, v < 4
    · rw [Base4Int.push_all_ok vs c hall]
      simpa [exState] using (Base4Int.foldl_pushOk_spec vs c ih hall).1
    · have hex : ∃ v ∈ vs, 4 ≤ v := by
        push_neg at hall
        rcases hall with ⟨v, hv1, hv2⟩
        exact ⟨v, hv1, by omega⟩
      rw [Base4Int.push_all_err vs c hex]
      have htw : ∀ v ∈ vs.takeWhile (fun v => decide (v < 4)), v < 4 := by
        intro v hv
        have hd := List.mem_takeWhile_imp hv
        simpa using hd
      simpa [exState] using
        (Base4Int.foldl_pushOk_spec (vs.takeWhile (fun v => decide (v < 4))) c ih htw).1
  | pop c _ ih =>
    by_cases hnil : c.blocks = []
    · unfold popState
      rw [Base4Int.pop_nil hnil]
      exact ih
    · obtain ⟨d, c2, hpop, _, _, hwf2, _⟩ := Base4Int.pop_spec ih hnil
      unfold popState
      rw [hpop]
      exact hwf2
  | pop_all c _ ih =>
    unfold Base4Int.pop_all
    by_cases h0 : c.total_len = 0
    · rw [if_pos h0]
      exact ih
    · rw [if_neg h0]
      exact Base4Int.wf_nil

/-- Indexing the concatenation of chunks whose non-last chunks all have
length exactly 64 (and none exceeds 64) splits as `i / 64` and `i % 64`. -/
theorem flatten_getElem_chunks :
    ∀ (L : List (List Nat)), (∀ x ∈ L.dropLast, x.length = 64) → (∀ x ∈ L, x.length ≤ 64) →
      ∀ i, L.flatten[i]? = (L[i / 64]?).bind (fun x => x[i % 64]?) := by
  intro L
  induction L with
  | nil => intro _ _ i; simp
  | cons x L ih =>
    intro hfull hle i
    have hxle : x.length ≤ 64 := hle x (by simp)
    rw [show (x :: L).flatten = x ++ L.flatten from rfl, List.getElem?_append]
    by_cases hi : i < x.length
    · rw [if_pos hi, show i / 64 = 0 from by omega, show i % 64 = i from by omega]
      have h0 : (x :: L)[0]? = some x := by simp
      rw [h0]
      rfl
    · rw [if_neg hi]
      by_cases hL : L = []
      · subst hL
        by_cases hi64 : i < 64
        · rw [show i / 64 = 0 from by omega, show i % 64 = i from by omega]
          have h0 : ([x] : List (List Nat))[0]? = some x := by simp
          rw [h0]
          have hx : x[i]? = none := List.getElem?_eq_none (by omega)
          simp [hx]
        · rw [show i / 64 = (i - 64) / 64 + 1 from by omega]
          simp
      · obtain ⟨y, M, rfl⟩ := List.exists_cons_of_ne_nil hL
        have hxfull : x.length = 64 := hfull x (by simp)
        have hge : 64 ≤ i := by omega
        rw [show i / 64 = (i - 64) / 64 + 1 from by omega,
          show i % 64 = (i - 64) % 64 from by omega]
        have hcons : (x :: y :: M)[(i - 64) / 64 + 1]? = (y :: M)[(i - 64) / 64]? := by
          simp
        rw [hcons, show i - x.length = i - 64 from by omega]
        exact ih (fun z hz => hfull z (by simp [hz])) (fun z hz => hle z (by simp [hz]))
          (i - 64)

/-- `Base4Int::peek_at` under the invariant reads exactly the digit at the
given logical index (and panics exactly when it is out of range). -/
theorem Base4Int.peek_at_list {c : Base4Int} (hc : c.wf) (i : Nat) :
    c.peek_at i = c.toList[i]? := by
  unfold Base4Int.peek_at
  by_cases hi : i < c.total_len
  · rw [if_pos hi]
    have hchunks := flatten_getElem_chunks (c.blocks.map Base4.toList) ?_ ?_ i
    · unfold Base4Int.toList
      rw [hchunks, List.getElem?_map]
      cases hb : c.blocks[i / 64]? with
      | none => rfl
      | some b =>
        show b.peek_at (i % 64) = (some b.toList).bind (fun x => x[i % 64]?)
        rw [Base4.peek_at_toList]
        rfl
    · intro x hx
      rw [← List.map_dropLast] at hx
      rcases List.mem_map.1 hx with ⟨y, hy, rfl⟩
      rw [Base4.toList_length]
      exact hc.2 y hy
    · intro x hx
      rcases List.mem_map.1 hx with ⟨y, hy, rfl⟩
      rw [Base4.toList_length]
      exact (hc.1 y hy).1.1
  · rw [if_neg hi]
    symm
    apply List.getElem?_eq_none
    rw [Base4Int.length_toList]
    omega

/-- `Base4Int::peek_all` returns exactly the held digit sequence. -/
theorem Base4Int.peek_all_list (c : Base4Int) : c.peek_all = c.toList := by
  unfold Base4Int.peek_all Base4Int.toList
  congr 1
  apply List.map_congr_left
  intro b _
  exact Base4.peek_all_toList b

/-! ## Further helper lemmas for output bounds -/

theorem Base4.pop_out_le {b : Base4} {d : Nat} (h : (b.pop).1 = some d) : d ≤ 3 := by
  unfold Base4.pop at h
  by_cases h0 : b.size = 0
  · rw [if_pos h0] at h
    simp at h
  · rw [if_neg h0] at h
    simp only [Option.some_inj] at h
    rw [← h, and_three]
    omega

theorem Base4.peek_at_le {b : Base4} {i d : Nat} (h : b.peek_at i = some d) : d ≤ 3 := by
  unfold Base4.peek_at at h
  by_cases h0 : i < b.size
  · rw [if_pos h0] at h
    simp only [Option.some_inj] at h
    rw [← h]
    unfold Base4.peekShift
    rw [and_three]
    omega
  · rw [if_neg h0] at h
    simp at h

theorem Base4Int.pop_value_le {c : Base4Int} {d : Nat} {c2 : Base4Int}
    (hd : c.pop = .ok (some d, c2)) : d ≤ 3 := by
  unfold Base4Int.pop at hd
  split at hd
  · exact absurd hd (by simp)
  · dsimp only at hd
    split at hd <;>
    · simp only [Except.ok.injEq, Prod.mk.injEq] at hd
      exact Base4.pop_out_le hd.1

theorem Base4Int.toList_le_three (c : Base4Int) : ∀ d ∈ c.toList, d ≤ 3 := by
  intro d hd
  unfold Base4Int.toList at hd
  rcases List.mem_flatten.1 hd with ⟨l, hl, hdl⟩
  rcases List.mem_map.1 hl with ⟨b, _, rfl⟩
  exact digitsMSB_le_three b.size b.packed d hdl

/-! ## The claims -/

/-- C1 (corrected). A failing `Base4::push_all` returns `false`; if the
failure is the length pre-check (more than 64 elements) the block is left
exactly as before the call, but if any pushed element is rejected (value
out of 0–3, or capacity reached mid-way) the block is reset to the empty
state `size = 0, packed = 0`, discarding any prior contents as well — it is
not restored to its pre-call state. -/
theorem base4_push_all_failure (b : Base4) (ints : List Nat)
    (h : (b.push_all ints).1 = false) :
    (64 < ints.length ∧ (b.push_all ints).2 = b) ∨
    (ints.length ≤ 64 ∧ (b.push_all ints).2 = { size := 0, packed := 0 }) := by
  unfold Base4.push_all at h ⊢
  by_cases hl : 64 < ints.length
  · rw [if_pos hl] at h ⊢
    exact Or.inl ⟨hl, rfl⟩
  · rw [if_neg hl] at h ⊢
    exact Or.inr ⟨by omega, Base4.pushAllLoop_false ints b h⟩

/-- C1 counterexample: on a block holding one digit, `push_all [4]` fails
and zeroes the block instead of leaving it as it was (size drops 1 → 0
although the block was not previously empty). -/
theorem base4_push_all_failure_cex :
    (Base4.push_all (Base4.new.push 1).2 [4]).1 = false ∧
    (Base4.push_all (Base4.new.push 1).2 [4]).2 ≠ (Base4.new.push 1).2 ∧
    (Base4.new.push 1).2.size = 1 ∧
    (Base4.push_all (Base4.new.push 1).2 [4]).2.size = 0 := by
  decide

theorem base4_push_all_failure_w :
    (64 < ([4] : List Nat).length ∧
      (Base4.push_all (Base4.mk 1 1) [4]).2 = Base4.mk 1 1) ∨
    (([4] : List Nat).length ≤ 64 ∧
      (Base4.push_all (Base4.mk 1 1) [4]).2 = { size := 0, packed := 0 }) :=
  base4_push_all_failure (Base4.mk 1 1) [4] (by decide)

/-- C2 (corrected). Round-trip `push_all; pop_all` returns the input
sequence: unconditionally for the chained container, but for the block
codec only when the input has at most 64 elements (longer inputs are
rejected by `push_all` and the subsequent `pop_all` returns `[]`). -/
theorem roundtrip_push_all_pop_all (S : List Nat) (hS : ∀ v ∈ S, v < 4) :
    (S.length ≤ 64 → (Base4.pop_all (Base4.push_all Base4.new S).2).1 = S) ∧
    (Base4Int.push_all Base4Int.new S = .ok (S.foldl Base4Int.pushOk Base4Int.new) ∧
      (Base4Int.pop_all (S.foldl Base4Int.pushOk Base4Int.new)).1 = S) := by
  refine ⟨?_, Base4Int.push_all_ok S Base4Int.new hS, ?_⟩
  · intro hlen
    unfold Base4.push_all
    rw [if_neg (by omega)]
    obtain ⟨_, hlist, _, _⟩ := Base4.pushAllLoop_ok S Base4.new Base4.wfB_new
      (by show Base4.new.size + S.length ≤ 64; show 0 + S.length ≤ 64; omega) hS
    rw [Base4.pop_all_fst, hlist]
    rfl
  · rw [Base4Int.pop_all_list,
      (Base4Int.foldl_pushOk_spec S Base4Int.new Base4Int.wf_new hS).2]
    rfl

/-- C2 counterexample: a 65-digit sequence does not round-trip through the
block codec — `push_all` rejects it and `pop_all` then yields `[]`. -/
theorem roundtrip_push_all_pop_all_cex :
    (Base4.pop_all (Base4.push_all Base4.new (List.replicate 65 0)).2).1 ≠
      List.replicate 65 0 := by
  decide

theorem roundtrip_push_all_pop_all_w :
    (Base4.pop_all (Base4.push_all Base4.new [1, 2, 3]).2).1 = [1, 2, 3] ∧
    (Base4Int.pop_all ([1, 2, 3].foldl Base4Int.pushOk Base4Int.new)).1 = [1, 2, 3] :=
  ⟨(roundtrip_push_all_pop_all [1, 2, 3] (by decide)).1 (by decide),
   (roundtrip_push_all_pop_all [1, 2, 3] (by decide)).2.2⟩

/-- C3 (confirmed). In every container state reachable from `new` through
the public operations (`push`, `push_all`, `pop`, `pop_all`; `peek_at` and
`peek_all` take `&self` and cannot change state), every block except
possibly the tail has size exactly 64, and no block has size 0. -/
theorem reachable_blocks_invariant (c : Base4Int) (h : c.Reachable) :
    (∀ b ∈ c.blocks.dropLast, b.size = 64) ∧ ∀ b ∈ c.blocks, b.size ≠ 0 :=
  ⟨(Base4Int.reachable_wf h).2, fun b hb => ((Base4Int.reachable_wf h).1 b hb).2⟩

theorem reachable_blocks_invariant_w :
    (∀ b ∈ (exState (Base4Int.push_all Base4Int.new [1, 2, 3])).blocks.dropLast,
      b.size = 64) ∧
    ∀ b ∈ (exState (Base4Int.push_all Base4Int.new [1, 2, 3])).blocks, b.size ≠ 0 :=
  reachable_blocks_invariant _
    (Base4Int.Reachable.push_all Base4Int.new [1, 2, 3] Base4Int.Reachable.new)

/-- C4 (confirmed). Pushing 128 digits into a fresh container gives 2
blocks and length 128; one more push gives 3 blocks and length 129; popping
returns that digit and restores the 2-block, 128-length state exactly. -/
theorem block_chaining_128 (S : List Nat) (d : Nat) (hlen : S.length = 128)
    (hS : ∀ v ∈ S, v < 4) (hd : d < 4) :
    ∃ c1 c2, Base4Int.push_all Base4Int.new S = .ok c1 ∧
      c1.total_blocks = 2 ∧ c1.total_len = 128 ∧
      c1.push d = .ok c2 ∧ c2.total_blocks = 3 ∧ c2.total_len = 129 ∧
      c2.pop = .ok (some d, c1) := by
  obtain ⟨hwf, hlist⟩ := Base4Int.foldl_pushOk_spec S Base4Int.new Base4Int.wf_new hS
  have hlen1 : (S.foldl Base4Int.pushOk Base4Int.new).total_len = 128 := by
    rw [← Base4Int.length_toList, hlist,
      show Base4Int.new.toList = ([] : List Nat) from rfl, List.nil_append]
    exact hlen
  have hblocks1 : (S.foldl Base4Int.pushOk Base4Int.new).total_blocks = 2 := by
    rw [Base4Int.total_blocks_ceil hwf, hlen1]
  obtain ⟨hlist2, hwf2⟩ := Base4Int.pushOk_spec hwf hd
  have hlen2 : ((S.foldl Base4Int.pushOk Base4Int.new).pushOk d).total_len = 129 := by
    rw [← Base4Int.length_toList, hlist2, List.length_append, Base4Int.length_toList,
      hlen1]
    rfl
  have hblocks2 : ((S.foldl Base4Int.pushOk Base4Int.new).pushOk d).total_blocks = 3 := by
    rw [Base4Int.total_blocks_ceil hwf2, hlen2]
  refine ⟨S.foldl Base4Int.pushOk Base4Int.new,
    (S.foldl Base4Int.pushOk Base4Int.new).pushOk d,
    Base4Int.push_all_ok S Base4Int.new hS, hblocks1, hlen1, ?_, hblocks2, hlen2,
    Base4Int.pop_pushOk hwf hd⟩
  unfold Base4Int.push
  rw [if_neg (by omega)]

theorem block_chaining_128_w :
    ∃ c1 c2, Base4Int.push_all Base4Int.new (List.replicate 128 1) = .ok c1 ∧
      c1.total_blocks = 2 ∧ c1.total_len = 128 ∧
      c1.push 2 = .ok c2 ∧ c2.total_blocks = 3 ∧ c2.total_len = 129 ∧
      c2.pop = .ok (some 2, c1) :=
  block_chaining_128 (List.replicate 128 1) 2 (by simp)
    (fun v hv => by rw [List.eq_of_mem_replicate hv]; omega) (by omega)

/-- C5 (confirmed). After loading `S` via `push_all` into a fresh
component, `peek_at i` returns `S[i]` for every `i < S.length` and
`peek_all` returns exactly `S` — for the block codec when `S.length ≤ 64`,
and for the chained container for every `S`. `peek_at`/`peek_all` take
`&self` in the source and are modelled as pure functions, so they cannot
change `size`/`total_len`. -/
theorem peek_ordering (S : List Nat) (hS : ∀ v ∈ S, v < 4) :
    (S.length ≤ 64 →
      (Base4.push_all Base4.new S).1 = true ∧
      (∀ i, i < S.length → ((Base4.push_all Base4.new S).2).peek_at i = S[i]?) ∧
      ((Base4.push_all Base4.new S).2).peek_all = S) ∧
    (Base4Int.push_all Base4Int.new S = .ok (S.foldl Base4Int.pushOk Base4Int.new) ∧
      (∀ i, i < S.length → (S.foldl Base4Int.pushOk Base4Int.new).peek_at i = S[i]?) ∧
      (S.foldl Base4Int.pushOk Base4Int.new).peek_all = S) := by
  constructor
  · intro hlen
    unfold Base4.push_all
    rw [if_neg (by omega)]
    obtain ⟨hok, hlist, _, _⟩ := Base4.pushAllLoop_ok S Base4.new Base4.wfB_new
      (by show Base4.new.size + S.length ≤ 64; show 0 + S.length ≤ 64; omega) hS
    have hlist0 : (Base4.pushAllLoop Base4.new S).2.toList = S := by
      rw [hlist]
      rfl
    refine ⟨hok, ?_, ?_⟩
    · intro i _
      rw [Base4.peek_at_toList, hlist0]
    · rw [Base4.peek_all_toList, hlist0]
  · obtain ⟨hwf, hlist⟩ := Base4Int.foldl_pushOk_spec S Base4Int.new Base4Int.wf_new hS
    have hlist0 : (S.foldl Base4Int.pushOk Base4Int.new).toList = S := by
      rw [hlist]
      rfl
    refine ⟨Base4Int.push_all_ok S Base4Int.new hS, ?_, ?_⟩
    · intro i _
      rw [Base4Int.peek_at_list hwf, hlist0]
    · rw [Base4Int.peek_all_list, hlist0]

theorem peek_ordering_w :
    ((Base4.push_all Base4.new [0, 1, 2, 3]).1 = true ∧
      (Base4.push_all Base4.new [0, 1, 2, 3]).2.peek_at 2 = [0, 1, 2, 3][2]? ∧
      (Base4.push_all Base4.new [0, 1, 2, 3]).2.peek_all = [0, 1, 2, 3]) ∧
    ([0, 1, 2, 3].foldl Base4Int.pushOk Base4Int.new).peek_at 2 = [0, 1, 2, 3][2]? ∧
    ([0, 1, 2, 3].foldl Base4Int.pushOk Base4Int.new).peek_all = [0, 1, 2, 3] := by
  have h := peek_ordering [0, 1, 2, 3] (by decide)
  have h1 := h.1 (by decide)
  exact ⟨⟨h1.1, h1.2.1 2 (by decide), h1.2.2⟩, h.2.2.1 2 (by decide), h.2.2.2⟩

/-- C6 (confirmed). On any block with the size invariant `size ≤ 64`,
`push v` succeeds exactly when `v ≤ 3` and `size < 64`; a failed push
leaves the block untouched, and a successful push increments `size` and
sets the register to (packed shifted left by 2) OR v, i.e.
`packed * 4 + v` modulo `2 ^ 128`. -/
theorem base4_push_contract (b : Base4) (v : Nat) (hb : b.size ≤ 64) :
    ((b.push v).1 = true ↔ v ≤ 3 ∧ b.size < 64) ∧
    ((b.push v).1 = false → (b.push v).2 = b) ∧
    ((b.push v).1 = true →
      (b.push v).2 = { size := b.size + 1, packed := (b.packed * 4 + v) % 2 ^ 128 }) := by
  unfold Base4.push
  by_cases hcond : 4 ≤ v ∨ b.size = 64
  · rw [if_pos hcond]
    refine ⟨?_, fun _ => rfl, ?_⟩
    · constructor
      · intro h
        exact absurd h (by simp)
      · intro h
        exfalso
        rcases h with ⟨h1, h2⟩
        omega
    · intro h
      exact absurd h (by simp)
  · rw [if_neg hcond]
    push_neg at hcond
    refine ⟨?_, ?_, ?_⟩
    · constructor
      · intro _
        constructor
        · omega
        · rcases hcond with ⟨_, h2⟩
          omega
      · intro _
        rfl
    · intro h
      exact absurd h (by simp)
    · intro _
      show Base4.mk (b.size + 1) (((b.packed <<< 2) % 2 ^ 128) ||| v) = _
      rw [push_packed (by omega)]

theorem base4_push_contract_w :
    ((Base4.new.push 2).1 = true ↔ 2 ≤ 3 ∧ Base4.new.size < 64) ∧
    ((Base4.new.push 2).1 = false → (Base4.new.push 2).2 = Base4.new) ∧
    ((Base4.new.push 2).1 = true →
      (Base4.new.push 2).2 =
        { size := Base4.new.size + 1, packed := (Base4.new.packed * 4 + 2) % 2 ^ 128 }) :=
  base4_push_contract Base4.new 2 (by decide)

/-- C7 (confirmed). The chained container's `push_all` pushes in order by
repeated `push`; on all-valid input it is the fold of the pushes, and if
some value is out of range it panics at the first such value with exactly
the preceding values of the call committed (no rollback). -/
theorem chained_push_all_no_rollback (c : Base4Int) (vs : List Nat) :
    ((∀ v ∈ vs, v < 4) → c.push_all vs = .ok (vs.foldl Base4Int.pushOk c)) ∧
    ((∃ v ∈ vs, 4 ≤ v) → c.push_all vs =
      .error ((vs.takeWhile (fun v => decide (v < 4))).foldl Base4Int.pushOk c)) :=
  ⟨fun h => Base4Int.push_all_ok vs c h, fun h => Base4Int.push_all_err vs c h⟩

theorem chained_push_all_no_rollback_w :
    Base4Int.push_all Base4Int.new [1, 2, 4, 3] =
      .error ((([1, 2, 4, 3] : List Nat).takeWhile (fun v => decide (v < 4))).foldl
        Base4Int.pushOk Base4Int.new) :=
  (chained_push_all_no_rollback Base4Int.new [1, 2, 4, 3]).2 ⟨4, by decide, by decide⟩

/-- C8 (confirmed). `Base4Int::pop` on a container with zero blocks panics
(rather than returning a recoverable empty result); on a non-empty
well-formed container it removes the most-recently-pushed digit from the
tail block, and evicts the tail block in the same operation exactly when
that pop empties it. -/
theorem chained_pop_empty_and_tail (c : Base4Int) :
    (c.total_blocks = 0 → c.pop = .error c) ∧
    (c.wf → c.blocks ≠ [] →
      ∃ d c2, c.pop = .ok (some d, c2) ∧
        some d = c.toList.getLast? ∧
        c2.toList = c.toList.dropLast ∧
        ∃ l b, c.blocks = l ++ [b] ∧
          ((b.size = 1 ∧ c2.blocks = l) ∨
           (1 < b.size ∧ c2.blocks = l ++ [Base4.mk (b.size - 1) (b.packed >>> 2)]))) := by
  constructor
  · intro h0
    exact Base4Int.pop_nil (List.eq_nil_of_length_eq_zero h0)
  · intro hwf hne
    obtain ⟨d, c2, h1, h2, h3, _, h5⟩ := Base4Int.pop_spec hwf hne
    exact ⟨d, c2, h1, h2, h3, h5⟩

theorem chained_pop_empty_and_tail_w :
    Base4Int.new.pop = .error Base4Int.new ∧
    ∃ d c2, (Base4Int.pushOk Base4Int.new 3).pop = .ok (some d, c2) ∧
      some d = (Base4Int.pushOk Base4Int.new 3).toList.getLast? ∧
      c2.toList = (Base4Int.pushOk Base4Int.new 3).toList.dropLast ∧
      ∃ l b, (Base4Int.pushOk Base4Int.new 3).blocks = l ++ [b] ∧
        ((b.size = 1 ∧ c2.blocks = l) ∨
         (1 < b.size ∧ c2.blocks = l ++ [Base4.mk (b.size - 1) (b.packed >>> 2)])) :=
  ⟨(chained_pop_empty_and_tail Base4Int.new).1 rfl,
   (chained_pop_empty_and_tail (Base4Int.pushOk Base4Int.new 3)).2
     (Base4Int.pushOk_spec Base4Int.wf_new (by omega)).2 (by decide)⟩

/-- C9 (confirmed). Every digit returned by the read/remove operations of
both components is at most 3, in every state (the extraction always masks
the register to its low 2 bits, so the value fits losslessly in any output
integer type). -/
theorem outputs_bounded (b : Base4) (i : Nat) (c : Base4Int) (j : Nat) :
    (∀ d, (b.pop).1 = some d → d ≤ 3) ∧
    (∀ d ∈ (b.pop_all).1, d ≤ 3) ∧
    (∀ d, b.peek_at i = some d → d ≤ 3) ∧
    (∀ d ∈ b.peek_all, d ≤ 3) ∧
    (∀ d c2, c.pop = .ok (some d, c2) → d ≤ 3) ∧
    (∀ d ∈ (c.pop_all).1, d ≤ 3) ∧
    (∀ d, c.peek_at j = some d → d ≤ 3) ∧
    (∀ d ∈ c.peek_all, d ≤ 3) := by
  refine ⟨fun d hd => Base4.pop_out_le hd, ?_, fun d hd => Base4.peek_at_le hd, ?_,
    ?_, ?_, ?_, ?_⟩
  · intro d hd
    rw [Base4.pop_all_fst] at hd
    exact digitsMSB_le_three b.size b.packed d hd
  · intro d hd
    rw [Base4.peek_all_toList] at hd
    exact digitsMSB_le_three b.size b.packed d hd
  · intro d c2 hd
    exact Base4Int.pop_value_le hd
  · intro d hd
    rw [Base4Int.pop_all_list] at hd
    exact Base4Int.toList_le_three c d hd
  · intro d hd
    unfold Base4Int.peek_at at hd
    by_cases hj : j < c.total_len
    · rw [if_pos hj] at hd
      cases hb2 : c.blocks[j / 64]? with
      | none =>
        rw [hb2] at hd
        simp at hd
      | some x =>
        rw [hb2] at hd
        exact Base4.peek_at_le hd
    · rw [if_neg hj] at hd
      simp at hd
  · intro d hd
    rw [Base4Int.peek_all_list] at hd
    exact Base4Int.toList_le_three c d hd

theorem outputs_bounded_w : (3 : Nat) ≤ 3 ∧ (1 : Nat) ≤ 3 :=
  ⟨(outputs_bounded (Base4.mk 2 7) 0 Base4Int.new 0).1 3 (by decide),
   (outputs_bounded (Base4.mk 2 7) 0 Base4Int.new 0).2.2.1 1 (by decide)⟩

/-- C10 (confirmed). On an empty container, or one whose tail block is
full, the public `get_codec` appends a fresh empty block (returning a
reference to it, i.e. to the new tail of size 0): the block count grows by
one while `total_len` and all existing blocks are unchanged — so calling
`get_codec` without pushing exposes a container whose tail has size 0. -/
theorem get_codec_appends_empty_block (c : Base4Int)
    (h : c.blocks = [] ∨ ∃ l b, c.blocks = l ++ [b] ∧ b.size = 64) :
    (c.get_codec).blocks = c.blocks ++ [Base4.new] ∧
    (c.get_codec).blocks.getLast? = some Base4.new ∧
    Base4.new.size = 0 ∧
    (c.get_codec).total_blocks = c.total_blocks + 1 ∧
    (c.get_codec).total_len = c.total_len := by
  have hblocks : (c.get_codec).blocks = c.blocks ++ [Base4.new] := by
    unfold Base4Int.get_codec
    rcases h with hnil | ⟨l, b, hcat, h64⟩
    · rw [hnil]
      rfl
    · rw [hcat, List.getLast?_concat]
      simp only [if_neg (show ¬ b.size < 64 from by omega)]
  refine ⟨hblocks, ?_, rfl, ?_, ?_⟩
  · rw [hblocks, List.getLast?_concat]
  · unfold Base4Int.total_blocks
    rw [hblocks]
    simp
  · unfold Base4Int.total_len
    rw [hblocks]
    simp [Base4.new]

theorem get_codec_appends_empty_block_w :
    (Base4Int.new.get_codec).blocks = Base4Int.new.blocks ++ [Base4.new] ∧
    (Base4Int.new.get_codec).blocks.getLast? = some Base4.new ∧
    Base4.new.size = 0 ∧
    (Base4Int.new.get_codec).total_blocks = Base4Int.new.total_blocks + 1 ∧
    (Base4Int.new.get_codec).total_len = Base4Int.new.total_len :=
  get_codec_appends_empty_block Base4Int.new (Or.inl rfl)
